import Mathlib

set_option maxHeartbeats 1000000

/-! Shallow embedding of `src/app.py`: the `TagManager` tag store and the
`ScholarSearcher.extract_paper_info` extractor, together with theorems
checking the specification's claims against them. -/

/-- The in-memory tag store `TagManager.author_tags`: a Python `dict` from
author name to list of tags, modelled as an association list in dict
insertion order with unique keys. -/
abbrev TagMap := List (String × List String)

/-- `TagManager.get_tags`: `self.author_tags.get(author, [])`. -/
def get_tags (tm : TagMap) (author : String) : List String :=
  (tm.lookup author).getD []

/-- Assignment `self.author_tags[author] = l` on a dict whose keys are
unique: replace the stored list at `author`, keeping dict order. -/
def setTags (tm : TagMap) (author : String) (l : List String) : TagMap :=
  tm.map (fun p => if p.1 = author then (author, l) else p)

/-- `TagManager.add_tag` (the in-memory effect; `save_tags` is external
persistence, out of the modelled state): create the author entry if
missing, then append the tag if not already present. -/
def add_tag (tm : TagMap) (author tag : String) : TagMap :=
  match tm.lookup author with
  | none => tm ++ [(author, [tag])]
  | some l => if tag ∈ l then tm else setTags tm author (l ++ [tag])

/-- `TagManager.remove_tag`: remove the tag if present; delete the author
entry when its list becomes empty. -/
def remove_tag (tm : TagMap) (author tag : String) : TagMap :=
  match tm.lookup author with
  | none => tm
  | some l =>
    if tag ∈ l then
      let l2 := l.erase tag
      if l2 = [] then tm.filter (fun p => p.1 != author) else setTags tm author l2
    else tm

/-- `TagManager.get_all_tags`: the set union of every author's tags,
returned sorted (Python `sorted(list(set(...)))`). -/
def get_all_tags (tm : TagMap) : List String :=
  List.insertionSort (fun a b => a ≤ b) ((tm.map Prod.snd).flatten.dedup)

/-- One entry of `paper['matching_authors']`. -/
structure MatchingAuthor where
  name : String
  tags : List String
  matching_tags : List String
deriving DecidableEq

/-- A paper dict as produced by `extract_paper_info`, with the optional
`matching_authors` key that `filter_papers_by_tags` fills in (an absent
key is modelled as `[]`). -/
structure Paper where
  title : String
  authors : List String
  snippet : String
  cited_by : Int
  publication_info : String
  matching_authors : List MatchingAuthor := []
deriving DecidableEq

/-- The inclusion test of line 144,
`any(tag in author_tags for tag in selected_tags)`, for one author. -/
def paperMatch (tm : TagMap) (selected : List String) (author : String) : Bool :=
  selected.any (fun t => decide (t ∈ get_tags tm author))

/-- The annotation pass of lines 146-155 over all authors of an included
paper. -/
def buildMatching (tm : TagMap) (selected : List String) (authors : List String) :
    List MatchingAuthor :=
  authors.filterMap (fun auth =>
    if (get_tags tm auth).filter (fun t => decide (t ∈ selected)) = [] then none
    else some (MatchingAuthor.mk auth (get_tags tm auth)
      ((get_tags tm auth).filter (fun t => decide (t ∈ selected)))))

/-- Setting `paper['matching_authors']` on an included paper. -/
def annotate (tm : TagMap) (selected : List String) (p : Paper) : Paper :=
  { p with matching_authors := buildMatching tm selected p.authors }

/-- The inner `for author in paper['authors']` loop of lines 142-157: the
first author passing `paperMatch` annotates the paper and returns it
(`break`); a paper with no matching author (or no authors) yields `none`. -/
def scanAuthors (tm : TagMap) (selected : List String) (p : Paper) :
    List String → Option Paper
  | [] => none
  | author :: rest =>
    if paperMatch tm selected author then some (annotate tm selected p)
    else scanAuthors tm selected p rest

/-- The outer `for paper in papers` loop accumulating `filtered_papers`. -/
def filterLoop (tm : TagMap) (selected : List String) : List Paper → List Paper
  | [] => []
  | p :: rest =>
    match scanAuthors tm selected p p.authors with
    | some q => q :: filterLoop tm selected rest
    | none => filterLoop tm selected rest

/-- `TagManager.filter_papers_by_tags`: pass-through on an empty
`selected_tags`, otherwise the filtering loop. -/
def filter_papers_by_tags (tm : TagMap) (papers : List Paper)
    (selected : List String) : List Paper :=
  match selected with
  | [] => papers
  | _ :: _ => filterLoop tm selected papers

/-- `get_tags` as a method call on the store state: the returned value
together with the state after the call; the body only reads
`self.author_tags`. -/
def get_tags_op (author : String) (tm : TagMap) : List String × TagMap :=
  (get_tags tm author, tm)

/-- `get_all_tags` as a method call on the store state. -/
def get_all_tags_op (tm : TagMap) : List String × TagMap :=
  (get_all_tags tm, tm)

/-- `filter_papers_by_tags` as a method call on the store state. -/
def filter_papers_op (papers : List Paper) (selected : List String)
    (tm : TagMap) : List Paper × TagMap :=
  (filter_papers_by_tags tm papers selected, tm)

/-- Python `str.strip()` (whitespace at both ends) on a char list. -/
def strTrim (s : List Char) : List Char :=
  ((s.dropWhile Char.isWhitespace).reverse.dropWhile Char.isWhitespace).reverse

/-- Python `str.strip()` on strings. -/
def pyStrip (s : String) : String := (strTrim s.toList).asString

/-- The `/add_tag` route handler (app.py lines 202-212): trim both
fields, answer an error without touching the store if either is empty,
otherwise call `add_tag` on the trimmed strings. The Bool is the
success flag of the response. -/
def add_tag_route (tm : TagMap) (author tag : String) : TagMap × Bool :=
  let a := pyStrip author
  let t := pyStrip tag
  if a = "" || t = "" then (tm, false) else (add_tag tm a t, true)

/-- Before/after split around the first occurrence of `sep` in `s`,
`none` when `sep` does not occur (`sep` is nonempty wherever used). -/
def splitFirst (sep : List Char) : List Char → Option (List Char × List Char)
  | [] => if sep.isEmpty then some ([], []) else none
  | c :: rest =>
    if sep.isPrefixOf (c :: rest) then some ([], (c :: rest).drop sep.length)
    else
      match splitFirst sep rest with
      | some (pre, post) => some (c :: pre, post)
      | none => none

/-- Python `s.split(sep)[0]`: the text before the first occurrence of
`sep`, or all of `s` when `sep` does not occur. -/
def splitChunk0 (sep s : List Char) : List Char :=
  match splitFirst sep s with
  | none => s
  | some (pre, _) => pre

/-- Python `s.split(sep)[1]`: the text between the first and second
occurrences of `sep`; `none` (an `IndexError`) when `sep` does not occur. -/
def splitChunk1 (sep s : List Char) : Option (List Char) :=
  match splitFirst sep s with
  | none => none
  | some (_, rest) =>
    match splitFirst sep rest with
    | none => some rest
    | some (pre, _) => some pre

/-- Python `s.split(c)` for a one-character separator: every segment,
empty segments kept. -/
def splitOnChar (sep : Char) : List Char → List (List Char)
  | [] => [[]]
  | c :: rest =>
    if c = sep then [] :: splitOnChar sep rest
    else
      match splitOnChar sep rest with
      | [] => [[c]]
      | chunk :: more => (c :: chunk) :: more

/-- Python `needle in hay` substring containment. -/
def containsSub (needle : List Char) : List Char → Bool
  | [] => needle.isEmpty
  | c :: rest => needle.isPrefixOf (c :: rest) || containsSub needle rest

/-- The digit run of Python `int()`, single underscores allowed between
digits, after the first digit has been consumed into `acc`. -/
def parseDigitsAux (acc : Nat) : List Char → Option Nat
  | [] => some acc
  | '_' :: c :: rest =>
    if c.isDigit then parseDigitsAux (acc * 10 + (c.toNat - 48)) rest else none
  | c :: rest =>
    if c.isDigit then parseDigitsAux (acc * 10 + (c.toNat - 48)) rest else none

/-- A digit run must start with a digit. -/
def parseDigits : List Char → Option Nat
  | c :: rest => if c.isDigit then parseDigitsAux (c.toNat - 48) rest else none
  | [] => none

/-- Python `int(str)` on ASCII input: strip whitespace, an optional
sign, then a digit run; `none` models `ValueError`. -/
def parsePyInt (s : List Char) : Option Int :=
  match strTrim s with
  | '+' :: rest => (parseDigits rest).map (fun n => (n : Int))
  | '-' :: rest => (parseDigits rest).map (fun n => -(n : Int))
  | rest => (parseDigits rest).map (fun n => (n : Int))

/-- The search predicate of line 69: anchor text containing the
substring "Cited by", with no trailing space. -/
def citedNeedle : List Char := "Cited by".toList

/-- The split separator of line 73: "Cited by " with the trailing space. -/
def citedSep : List Char := "Cited by ".toList

/-- Lines 70-75 applied to a found anchor text: take
`text.split("Cited by ")[1]` and `int(...)` it, any failure giving 0. -/
def parseCitedText (t : String) : Int :=
  match splitChunk1 citedSep t.toList with
  | none => 0
  | some part => (parsePyInt part).getD 0

/-- Lines 68-75: find the first anchor whose text contains "Cited by"
and parse its count, defaulting to 0. -/
def extract_cited_by (anchors : List String) : Int :=
  match anchors.find? (fun t => containsSub citedNeedle t.toList) with
  | none => 0
  | some t => parseCitedText t

/-- The citedBy rule exactly as the specification words it: the anchor
looked for must contain the substring "Cited by " including the trailing
space; the integer following it is then parsed, 0 on any failure.
Stated only for comparison with `extract_cited_by`. -/
def citedBySpec (anchors : List String) : Int :=
  match anchors.find? (fun t => containsSub citedSep t.toList) with
  | none => 0
  | some t => parseCitedText t

/-- Lines 59-62: on a non-empty byline text, split on " - ", keep the
first segment, split it on commas and strip each name; an empty or
missing byline text gives no authors. -/
def extract_authors (authors_text : String) : List String :=
  if authors_text = "" then []
  else (splitOnChar ',' (splitChunk0 " - ".toList authors_text.toList)).map
    (fun cs => (strTrim cs).asString)

/-- The author rule as the specification words it for any present
byline, with no guard on an empty byline text. Stated only for
comparison with `extract_authors`. -/
def authorsClaim (byline : String) : List String :=
  (splitOnChar ',' (splitChunk0 " - ".toList byline.toList)).map
    (fun cs => (strTrim cs).asString)

/-- The queried parts of one `div.gs_r` result block: the optional text
of its title, byline and snippet elements, and the texts of its anchor
elements in document order. -/
structure ResultDiv where
  title_text : Option String
  byline_text : Option String
  snippet_text : Option String
  anchor_texts : List String

/-- `ScholarSearcher.extract_paper_info` on one result block. -/
def extract_paper_info (r : ResultDiv) : Paper :=
  let authors_text := r.byline_text.getD ""
  { title := r.title_text.getD "Unknown Title"
    authors := extract_authors authors_text
    snippet := r.snippet_text.getD ""
    cited_by := extract_cited_by r.anchor_texts
    publication_info := authors_text }

/-! ### Association-list lemmas for the dict model -/

/-- `List.lookup` on a cons cell, with a propositional key test. -/
theorem lookup_cons_pair (a : String) (p : String × List String) (tm : TagMap) :
    List.lookup a (p :: tm) = if a = p.1 then some p.2 else List.lookup a tm := by
  obtain ⟨k, v⟩ := p
  rw [List.lookup_cons]
  by_cases h : a = k
  · simp [h]
  · simp [h, beq_false_of_ne h]

/-- A lookup misses exactly the keys absent from the dict. -/
theorem lookup_eq_none_iff {a : String} {tm : TagMap} :
    List.lookup a tm = none ↔ a ∉ tm.map Prod.fst := by
  induction tm with
  | nil => simp
  | cons p rest ih =>
    rw [lookup_cons_pair]
    by_cases h : a = p.1
    · simp [h]
    · simp [h, ih]

/-- A successful lookup returns an actual entry of the dict. -/
theorem lookup_eq_some_mem {a : String} {tm : TagMap} {l : List String}
    (h : List.lookup a tm = some l) : (a, l) ∈ tm := by
  induction tm with
  | nil => simp at h
  | cons p rest ih =>
    rw [lookup_cons_pair] at h
    by_cases hk : a = p.1
    · rw [if_pos hk] at h
      obtain ⟨k, v⟩ := p
      simp at h hk
      subst hk
      subst h
      exact List.mem_cons_self _ _
    · rw [if_neg hk] at h
      exact List.mem_cons_of_mem _ (ih h)

/-- Appending to a dict missing the key delegates the lookup. -/
theorem lookup_append_of_none {a : String} {tm : TagMap} (l2 : TagMap)
    (h : List.lookup a tm = none) :
    List.lookup a (tm ++ l2) = List.lookup a l2 := by
  induction tm with
  | nil => simp
  | cons p rest ih =>
    rw [lookup_cons_pair] at h
    rw [List.cons_append, lookup_cons_pair]
    by_cases hk : a = p.1
    · rw [if_pos hk] at h
      simp at h
    · rw [if_neg hk] at h ⊢
      exact ih h

/-- A lookup after `setTags` at the same existing key sees the new list. -/
theorem lookup_setTags_self {a : String} {tm : TagMap} {l : List String}
    (h : List.lookup a tm = some l) (L : List String) :
    List.lookup a (setTags tm a L) = some L := by
  induction tm with
  | nil => simp at h
  | cons p rest ih =>
    rw [lookup_cons_pair] at h
    unfold setTags
    rw [List.map_cons]
    by_cases hk : p.1 = a
    · rw [if_pos hk, lookup_cons_pair]
      simp
    · rw [if_neg hk, lookup_cons_pair]
      rw [if_neg (fun he => hk he.symm)] at h ⊢
      exact ih h

/-- Every entry of a `setTags` result is an old entry or the new one. -/
theorem mem_setTags {p : String × List String} {tm : TagMap} {a : String}
    {L : List String} (h : p ∈ setTags tm a L) : p ∈ tm ∨ p = (a, L) := by
  unfold setTags at h
  rcases List.mem_map.1 h with ⟨q, hq, he⟩
  by_cases hk : q.1 = a
  · rw [if_pos hk] at he
    exact Or.inr he.symm
  · rw [if_neg hk] at he
    exact Or.inl (he ▸ hq)

/-- `setTags` keeps the key sequence of the dict unchanged. -/
theorem setTags_keys (tm : TagMap) (a : String) (L : List String) :
    (setTags tm a L).map Prod.fst = tm.map Prod.fst := by
  induction tm with
  | nil => rfl
  | cons p rest ih =>
    unfold setTags at ih ⊢
    rw [List.map_cons, List.map_cons, List.map_cons]
    rw [ih]
    by_cases hk : p.1 = a
    · rw [if_pos hk, hk]
    · rw [if_neg hk]

/-- Filtering a key out of the dict makes its lookup miss. -/
theorem lookup_filter_ne (tm : TagMap) (a : String) :
    List.lookup a (tm.filter (fun p => p.1 != a)) = none := by
  induction tm with
  | nil => rfl
  | cons p rest ih =>
    rw [List.filter_cons]
    by_cases hk : p.1 = a
    · simp [hk, ih]
    · rw [if_pos (by simp [hk]), lookup_cons_pair, if_neg (fun he => hk he.symm)]
      exact ih

/-- Filtering a key out of the dict removes it from the key sequence. -/
theorem keys_filter_ne (tm : TagMap) (a : String) :
    a ∉ (tm.filter (fun p => p.1 != a)).map Prod.fst := by
  intro h
  rcases List.mem_map.1 h with ⟨p, hp, he⟩
  have hne := (List.mem_filter.1 hp).2
  rw [bne_iff_ne] at hne
  exact hne he

/-! ### Branch equations for the store mutators -/

/-- `add_tag` on a missing author appends a fresh singleton entry. -/
theorem add_tag_none {tm : TagMap} {a : String} (t : String)
    (h : List.lookup a tm = none) : add_tag tm a t = tm ++ [(a, [t])] := by
  unfold add_tag
  rw [h]

/-- `add_tag` of an already present tag changes nothing. -/
theorem add_tag_mem {tm : TagMap} {a t : String} {l : List String}
    (h : List.lookup a tm = some l) (ht : t ∈ l) : add_tag tm a t = tm := by
  unfold add_tag
  rw [h]
  exact if_pos ht

/-- `add_tag` of a new tag for a present author appends it to the list. -/
theorem add_tag_notMem {tm : TagMap} {a t : String} {l : List String}
    (h : List.lookup a tm = some l) (ht : t ∉ l) :
    add_tag tm a t = setTags tm a (l ++ [t]) := by
  unfold add_tag
  rw [h]
  exact if_neg ht

/-- `remove_tag` on a missing author changes nothing. -/
theorem remove_tag_none {tm : TagMap} {a : String} (t : String)
    (h : List.lookup a tm = none) : remove_tag tm a t = tm := by
  unfold remove_tag
  rw [h]

/-- `remove_tag` of an absent tag changes nothing. -/
theorem remove_tag_notMem {tm : TagMap} {a t : String} {l : List String}
    (h : List.lookup a tm = some l) (ht : t ∉ l) : remove_tag tm a t = tm := by
  unfold remove_tag
  rw [h]
  exact if_neg ht

/-- `remove_tag` of the last tag deletes the author's entry. -/
theorem remove_tag_last {tm : TagMap} {a t : String} {l : List String}
    (h : List.lookup a tm = some l) (ht : t ∈ l) (hz : l.erase t = []) :
    remove_tag tm a t = tm.filter (fun p => p.1 != a) := by
  unfold remove_tag
  rw [h]
  exact (if_pos ht).trans (by rw [if_pos hz])

/-- `remove_tag` of one of several tags rewrites the author's list. -/
theorem remove_tag_erase {tm : TagMap} {a t : String} {l : List String}
    (h : List.lookup a tm = some l) (ht : t ∈ l) (hz : l.erase t ≠ []) :
    remove_tag tm a t = setTags tm a (l.erase t) := by
  unfold remove_tag
  rw [h]
  exact (if_pos ht).trans (by rw [if_neg hz])

/-! ### Tag store claims -/

/-- The dict representation invariant of `author_tags`: unique keys, and
(spec section 3) every stored tag list non-empty and duplicate-free. -/
def StoreInv (tm : TagMap) : Prop :=
  (∀ p ∈ tm, p.2 ≠ [] ∧ p.2.Nodup) ∧ (tm.map Prod.fst).Nodup

instance (tm : TagMap) : Decidable (StoreInv tm) := by
  unfold StoreInv
  infer_instance

/-- C4: every author key maps to a non-empty duplicate-free tag list, an
invariant preserved by `add_tag` and `remove_tag`; removing an author's
last tag deletes the entry, so `get_tags` then answers `[]` and the
author no longer appears among the keys feeding `get_all_tags`. -/
theorem tag_store_invariant_preserved (tm : TagMap) (hinv : StoreInv tm)
    (a t : String) :
    StoreInv (add_tag tm a t) ∧ StoreInv (remove_tag tm a t) ∧
      (get_tags tm a = [t] →
        get_tags (remove_tag tm a t) a = [] ∧
          a ∉ (remove_tag tm a t).map Prod.fst) := by
  refine ⟨?_, ?_, ?_⟩
  · cases e : List.lookup a tm with
    | none =>
      rw [add_tag_none t e]
      constructor
      · intro p hp
        rcases List.mem_append.1 hp with h | h
        · exact hinv.1 p h
        · simp at h
          subst h
          exact ⟨by simp, by simp⟩
      · rw [List.map_append, List.map_cons, List.map_nil]
        rw [List.nodup_append]
        exact ⟨hinv.2, List.nodup_singleton a,
          by simpa using lookup_eq_none_iff.1 e⟩
    | some l =>
      by_cases ht : t ∈ l
      · rw [add_tag_mem e ht]
        exact hinv
      · rw [add_tag_notMem e ht]
        have hl := hinv.1 _ (lookup_eq_some_mem e)
        constructor
        · intro p hp
          rcases mem_setTags hp with h | h
          · exact hinv.1 p h
          · subst h
            refine ⟨by simp, ?_⟩
            rw [List.nodup_append]
            exact ⟨hl.2, List.nodup_singleton t, by simpa using ht⟩
        · rw [setTags_keys]
          exact hinv.2
  · cases e : List.lookup a tm with
    | none =>
      rw [remove_tag_none t e]
      exact hinv
    | some l =>
      by_cases ht : t ∈ l
      · by_cases hz : l.erase t = []
        · rw [remove_tag_last e ht hz]
          constructor
          · intro p hp
            exact hinv.1 p (List.mem_filter.1 hp).1
          · exact ((List.filter_sublist _).map Prod.fst).nodup hinv.2
        · rw [remove_tag_erase e ht hz]
          have hl := hinv.1 _ (lookup_eq_some_mem e)
          constructor
          · intro p hp
            rcases mem_setTags hp with h | h
            · exact hinv.1 p h
            · subst h
              exact ⟨hz, hl.2.erase t⟩
          · rw [setTags_keys]
            exact hinv.2
      · rw [remove_tag_notMem e ht]
        exact hinv
  · intro hone
    unfold get_tags at hone
    cases e : List.lookup a tm with
    | none =>
      rw [e] at hone
      simp at hone
    | some l =>
      rw [e] at hone
      simp at hone
      subst hone
      rw [remove_tag_last e (List.mem_singleton_self t) (by simp)]
      refine ⟨?_, keys_filter_ne tm a⟩
      unfold get_tags
      rw [lookup_filter_ne]
      rfl

/-- Witness for C4 at a concrete store. -/
theorem tag_store_invariant_preserved_witness :
    StoreInv (add_tag [("Alice", ["nlp"])] "Alice" "ml") ∧
      get_tags (remove_tag [("Alice", ["nlp"])] "Alice" "nlp") "Alice" = [] ∧
      "Alice" ∉ (remove_tag [("Alice", ["nlp"])] "Alice" "nlp").map Prod.fst :=
  ⟨(tag_store_invariant_preserved [("Alice", ["nlp"])] (by unfold StoreInv; decide)
      "Alice" "ml").1,
    ((tag_store_invariant_preserved [("Alice", ["nlp"])] (by unfold StoreInv; decide)
        "Alice" "nlp").2.2 (by decide)).1,
    ((tag_store_invariant_preserved [("Alice", ["nlp"])] (by unfold StoreInv; decide)
        "Alice" "nlp").2.2 (by decide)).2⟩

/-- C5: `add_tag` is idempotent, and adding a tag already present for the
author changes nothing at all. -/
theorem add_tag_idempotent (tm : TagMap) (a t : String) :
    add_tag (add_tag tm a t) a t = add_tag tm a t ∧
      (t ∈ get_tags tm a → add_tag tm a t = tm) := by
  constructor
  · cases e : List.lookup a tm with
    | none =>
      rw [add_tag_none t e]
      have h2 : List.lookup a (tm ++ [(a, [t])]) = some [t] := by
        rw [lookup_append_of_none _ e, lookup_cons_pair]
        simp
      exact add_tag_mem h2 (List.mem_singleton_self t)
    | some l =>
      by_cases ht : t ∈ l
      · rw [add_tag_mem e ht]
        exact add_tag_mem e ht
      · rw [add_tag_notMem e ht]
        exact add_tag_mem (lookup_setTags_self e _) (by simp)
  · intro ht
    unfold get_tags at ht
    cases e : List.lookup a tm with
    | none =>
      rw [e] at ht
      simp at ht
    | some l =>
      rw [e] at ht
      simp at ht
      exact add_tag_mem e ht

/-- Witness for C5 at a concrete store. -/
theorem add_tag_idempotent_witness :
    add_tag (add_tag [] "Alice" "nlp") "Alice" "nlp" = add_tag [] "Alice" "nlp" ∧
      add_tag [("Alice", ["nlp"])] "Alice" "nlp" = [("Alice", ["nlp"])] :=
  ⟨(add_tag_idempotent [] "Alice" "nlp").1,
    (add_tag_idempotent [("Alice", ["nlp"])] "Alice" "nlp").2 (by decide)⟩

/-- C3 counterexample: the store-level `add_tag` neither trims its
arguments nor rejects input that is empty after trimming; it stores the
strings exactly as given, so the mapping does change. -/
theorem add_tag_no_trim_counterexample :
    add_tag [] " Alice" "nlp" = [(" Alice", ["nlp"])] ∧
      get_tags (add_tag [] " Alice" "nlp") "Alice" = [] ∧
      add_tag [] "" "nlp" = [("", ["nlp"])] ∧
      add_tag [] "Alice" " " = [("Alice", [" "])] ∧
      add_tag [] "" "nlp" ≠ [] := by
  decide

/-- C3 amended: the trim-and-reject behavior lives in the `/add_tag`
route handler, not in the store. The route trims both arguments; if
either is empty after trimming it answers an error and leaves the store
untouched, otherwise it calls `add_tag` on the trimmed strings. -/
theorem add_tag_route_validation (tm : TagMap) (author tag : String) :
    (pyStrip author = "" ∨ pyStrip tag = "" →
        add_tag_route tm author tag = (tm, false)) ∧
      (pyStrip author ≠ "" → pyStrip tag ≠ "" →
        add_tag_route tm author tag = (add_tag tm (pyStrip author) (pyStrip tag), true)) := by
  constructor
  · intro h
    unfold add_tag_route
    rcases h with h | h <;> simp [h]
  · intro h1 h2
    unfold add_tag_route
    simp [h1, h2]

/-- Witness for the amended C3 at concrete inputs. -/
theorem add_tag_route_validation_witness :
    (pyStrip " " = "" ∨ pyStrip "nlp" = "") ∧
      add_tag_route [] " " "nlp" = ([], false) ∧
      add_tag_route [] " Alice " " nlp" = (add_tag [] (pyStrip " Alice ") (pyStrip " nlp"), true) :=
  ⟨Or.inl (by decide),
    (add_tag_route_validation [] " " "nlp").1 (Or.inl (by decide)),
    (add_tag_route_validation [] " Alice " " nlp").2 (by decide) (by decide)⟩

/-- C6: filtering with an empty `selected_tags` list is the identity on
the papers argument (lines 137-138). -/
theorem filter_empty_tags_identity (tm : TagMap) (papers : List Paper) :
    filter_papers_by_tags tm papers [] = papers := rfl

/-- C9: `get_all_tags` is sorted, duplicate-free, and holds exactly the
tags occurring in some author's list. -/
theorem get_all_tags_sorted_dedup (tm : TagMap) (t : String) :
    List.Sorted (fun a b => a ≤ b) (get_all_tags tm) ∧
      (get_all_tags tm).Nodup ∧
      (t ∈ get_all_tags tm ↔ ∃ p ∈ tm, t ∈ p.2) := by
  refine ⟨List.sorted_insertionSort _ _, ?_, ?_⟩
  · exact ((List.perm_insertionSort _ _).nodup_iff).2 (List.nodup_dedup _)
  · unfold get_all_tags
    rw [(List.perm_insertionSort _ _).mem_iff, List.mem_dedup, List.mem_flatten]
    constructor
    · rintro ⟨l, hl, ht⟩
      rcases List.mem_map.1 hl with ⟨p, hp, he⟩
      exact ⟨p, hp, by rw [he]; exact ht⟩
    · rintro ⟨p, hp, ht⟩
      exact ⟨p.2, List.mem_map.2 ⟨p, hp, rfl⟩, ht⟩

/-- C10: the query operations return their result and leave the store
state exactly as it was; `get_tags` answers the stored list of a known
author and `[]` for an unknown one. -/
theorem queries_pure (tm : TagMap) (a : String) (papers : List Paper)
    (selected : List String) :
    (get_tags_op a tm).2 = tm ∧ (get_all_tags_op tm).2 = tm ∧
      (filter_papers_op papers selected tm).2 = tm ∧
      (∀ l, List.lookup a tm = some l → (get_tags_op a tm).1 = l) ∧
      (a ∉ tm.map Prod.fst → (get_tags_op a tm).1 = []) := by
  refine ⟨rfl, rfl, rfl, ?_, ?_⟩
  · intro l h
    simp [get_tags_op, get_tags, h]
  · intro h
    simp [get_tags_op, get_tags, lookup_eq_none_iff.2 h]

/-- Witness for C10 at a concrete store. -/
theorem queries_pure_witness :
    (get_tags_op "Bob" [("Alice", ["nlp"])]).2 = [("Alice", ["nlp"])] ∧
      (get_tags_op "Bob" [("Alice", ["nlp"])]).1 = [] :=
  ⟨(queries_pure [("Alice", ["nlp"])] "Bob" [] []).1,
    (queries_pure [("Alice", ["nlp"])] "Bob" [] []).2.2.2.2 (by decide)⟩

/-! ### Filtering claims -/

/-- The inner author scan returns the annotated paper exactly when some
author passes `paperMatch`, independent of which author fired the break. -/
theorem scanAuthors_eq (tm : TagMap) (selected : List String) (p : Paper)
    (authors : List String) :
    scanAuthors tm selected p authors =
      if authors.any (paperMatch tm selected) then some (annotate tm selected p)
      else none := by
  induction authors with
  | nil => rfl
  | cons a rest ih =>
    by_cases h : paperMatch tm selected a
    · simp [scanAuthors, h]
    · simp [scanAuthors, h, ih]

/-- The filtering loop is the existential author filter followed by the
annotation map. -/
theorem filterLoop_eq (tm : TagMap) (selected : List String)
    (papers : List Paper) :
    filterLoop tm selected papers =
      (papers.filter (fun p => p.authors.any (paperMatch tm selected))).map
        (annotate tm selected) := by
  induction papers with
  | nil => rfl
  | cons p rest ih =>
    by_cases h : p.authors.any (paperMatch tm selected)
    · simp [filterLoop, scanAuthors_eq, h, List.filter_cons, ih]
    · simp [filterLoop, scanAuthors_eq, h, List.filter_cons, ih]

/-- C1: with a non-empty tag selection the result keeps each paper at
most once — it is the one-pass filter-and-annotate of the input list —
and a paper passes exactly when some author of it carries some selected
tag; a paper without authors never passes. -/
theorem filter_inclusion_characterization (tm : TagMap) (papers : List Paper)
    (selected : List String) (p : Paper) (h : selected ≠ []) :
    filter_papers_by_tags tm papers selected =
        (papers.filter (fun q => q.authors.any (paperMatch tm selected))).map
          (annotate tm selected) ∧
      (p.authors.any (paperMatch tm selected) = true ↔
        ∃ a ∈ p.authors, ∃ t ∈ get_tags tm a, t ∈ selected) ∧
      (p.authors = [] → p.authors.any (paperMatch tm selected) = false) := by
  refine ⟨?_, ?_, ?_⟩
  · cases selected with
    | nil => exact absurd rfl h
    | cons s rest => exact filterLoop_eq tm (s :: rest) papers
  · simp only [paperMatch, List.any_eq_true, decide_eq_true_eq]
    constructor
    · rintro ⟨a, ha, t, ht, hm⟩
      exact ⟨a, ha, t, hm, ht⟩
    · rintro ⟨a, ha, t, hm, ht⟩
      exact ⟨a, ha, t, ht, hm⟩
  · intro he
    rw [he]
    rfl

/-- The author tag map of the specification's worked example. -/
def tmEx : TagMap := [("Alice", ["nlp"]), ("Bob", ["vision"])]

/-- Paper P1 of the worked example. -/
def p1Ex : Paper :=
  { title := "P1", authors := ["Alice", "Carol"], snippet := "", cited_by := 0,
    publication_info := "" }

/-- Paper P2 of the worked example. -/
def p2Ex : Paper :=
  { title := "P2", authors := ["Bob"], snippet := "", cited_by := 0,
    publication_info := "" }

/-- Paper P3 of the worked example. -/
def p3Ex : Paper :=
  { title := "P3", authors := ["Carol"], snippet := "", cited_by := 0,
    publication_info := "" }

/-- A paper with no authors at all (missing byline). -/
def pEmptyEx : Paper :=
  { title := "E", authors := [], snippet := "", cited_by := 0,
    publication_info := "" }

/-- The paper batch of the worked example, plus the author-less paper. -/
def papersEx : List Paper := [p1Ex, p2Ex, p3Ex, pEmptyEx]

/-- Witness for C1 on the specification's worked example. -/
theorem filter_inclusion_characterization_witness :
    filter_papers_by_tags tmEx papersEx ["nlp"] =
      (papersEx.filter (fun q => q.authors.any (paperMatch tmEx ["nlp"]))).map
        (annotate tmEx ["nlp"]) :=
  (filter_inclusion_characterization tmEx papersEx ["nlp"] pEmptyEx (by decide)).1

/-- Unfolding `buildMatching` over the leading author. -/
theorem buildMatching_cons (tm : TagMap) (selected : List String) (a : String)
    (rest : List String) :
    buildMatching tm selected (a :: rest) =
      if (get_tags tm a).filter (fun t => decide (t ∈ selected)) = [] then
        buildMatching tm selected rest
      else
        { name := a, tags := get_tags tm a,
            matching_tags := (get_tags tm a).filter (fun t => decide (t ∈ selected)) } ::
          buildMatching tm selected rest := by
  unfold buildMatching
  rw [List.filterMap_cons]
  by_cases hz : (get_tags tm a).filter (fun t => decide (t ∈ selected)) = []
  · simp only [if_pos hz]
  · simp only [if_neg hz]

/-- The names in `matching_authors` are exactly the authors with a
non-empty tag intersection, in the original author order. -/
theorem buildMatching_names (tm : TagMap) (selected : List String)
    (authors : List String) :
    (buildMatching tm selected authors).map MatchingAuthor.name =
      authors.filter
        (fun a => decide ((get_tags tm a).filter (fun t => decide (t ∈ selected)) ≠ [])) := by
  induction authors with
  | nil => rfl
  | cons a rest ih =>
    rw [buildMatching_cons, List.filter_cons]
    by_cases hz : (get_tags tm a).filter (fun t => decide (t ∈ selected)) = []
    · rw [if_pos hz, if_neg (by simp [hz]), ih]
    · rw [if_neg hz, if_pos (by simp [hz]), List.map_cons, ih]

/-- Every `matching_authors` entry carries the author's full tag list,
the non-empty intersection with the selected tags, and nothing else. -/
theorem buildMatching_fields (tm : TagMap) (selected : List String)
    (authors : List String) :
    ∀ m ∈ buildMatching tm selected authors,
      m.tags = get_tags tm m.name ∧
        m.matching_tags = (get_tags tm m.name).filter (fun t => decide (t ∈ selected)) ∧
        m.matching_tags ≠ [] := by
  induction authors with
  | nil =>
    intro m hm
    simp [buildMatching] at hm
  | cons a rest ih =>
    intro m hm
    rw [buildMatching_cons] at hm
    by_cases hz : (get_tags tm a).filter (fun t => decide (t ∈ selected)) = []
    · rw [if_pos hz] at hm
      exact ih m hm
    · rw [if_neg hz] at hm
      rcases List.mem_cons.1 hm with h | h
      · subst h
        exact ⟨rfl, rfl, hz⟩
      · exact ih m h

/-- C2: for every paper included by a non-empty tag selection, the
`matching_authors` field lists exactly the authors whose tags intersect
the selection, in the paper's author order, each entry carrying the
author's name, full tag list and intersecting tags. -/
theorem matching_authors_exact (tm : TagMap) (papers : List Paper)
    (selected : List String) (q : Paper) (h : selected ≠ [])
    (hq : q ∈ filter_papers_by_tags tm papers selected) :
    q.matching_authors.map MatchingAuthor.name =
        q.authors.filter
          (fun a => decide ((get_tags tm a).filter (fun t => decide (t ∈ selected)) ≠ [])) ∧
      ∀ m ∈ q.matching_authors,
        m.tags = get_tags tm m.name ∧
          m.matching_tags = (get_tags tm m.name).filter (fun t => decide (t ∈ selected)) ∧
          m.matching_tags ≠ [] := by
  cases selected with
  | nil => exact absurd rfl h
  | cons s rest =>
    have he : filter_papers_by_tags tm papers (s :: rest) =
        (papers.filter (fun p => p.authors.any (paperMatch tm (s :: rest)))).map
          (annotate tm (s :: rest)) := filterLoop_eq tm (s :: rest) papers
    rw [he] at hq
    rcases List.mem_map.1 hq with ⟨p, _, hp⟩
    subst hp
    exact ⟨buildMatching_names tm (s :: rest) p.authors,
      buildMatching_fields tm (s :: rest) p.authors⟩

/-- Witness for C2 on the specification's worked example: P1 is included
and its matching author is Alice alone, Carol being tagless. -/
theorem matching_authors_exact_witness :
    (annotate tmEx ["nlp"] p1Ex).matching_authors.map MatchingAuthor.name =
        (annotate tmEx ["nlp"] p1Ex).authors.filter
          (fun a => decide ((get_tags tmEx a).filter (fun t => decide (t ∈ ["nlp"])) ≠ [])) ∧
      (annotate tmEx ["nlp"] p1Ex).matching_authors =
        [{ name := "Alice", tags := ["nlp"], matching_tags := ["nlp"] }] :=
  ⟨(matching_authors_exact tmEx papersEx ["nlp"] (annotate tmEx ["nlp"] p1Ex)
      (by decide) (by decide)).1,
    by decide⟩

/-! ### Extractor claims -/

/-- A left factor of a prefix is itself a prefix. -/
theorem isPrefixOf_append_left (n m : List Char) :
    ∀ s : List Char, (n ++ m).isPrefixOf s = true → n.isPrefixOf s = true := by
  induction n with
  | nil =>
    intro s _
    simp [List.isPrefixOf]
  | cons c n ih =>
    intro s h
    cases s with
    | nil => simp [List.isPrefixOf] at h
    | cons d s =>
      simp only [List.cons_append, List.isPrefixOf, Bool.and_eq_true] at h ⊢
      exact ⟨h.1, ih s h.2⟩

/-- Containing a longer needle implies containing its left factor. -/
theorem containsSub_of_append (n m : List Char) :
    ∀ s : List Char, containsSub (n ++ m) s = true → containsSub n s = true := by
  intro s
  induction s with
  | nil =>
    simp only [containsSub, List.isEmpty_eq_true, List.append_eq_nil]
    intro h
    simp [h.1]
  | cons c rest ih =>
    simp only [containsSub, Bool.or_eq_true]
    intro h
    rcases h with h | h
    · exact Or.inl (isPrefixOf_append_left n m _ h)
    · exact Or.inr (ih h)

/-- The two needles of the citation scan differ by the trailing space. -/
theorem citedSep_decomp : citedSep = citedNeedle ++ [' '] := by decide

/-- An anchor containing "Cited by " also contains "Cited by". -/
theorem containsSub_sep_needle (s : List Char)
    (h : containsSub citedSep s = true) : containsSub citedNeedle s = true :=
  containsSub_of_append citedNeedle [' '] s (by rw [← citedSep_decomp]; exact h)

/-- Unfolding `extract_cited_by` over the leading anchor. -/
theorem extract_cited_by_cons (x : String) (rest : List String) :
    extract_cited_by (x :: rest) =
      if containsSub citedNeedle x.toList = true then parseCitedText x
      else extract_cited_by rest := by
  unfold extract_cited_by
  by_cases hx : containsSub citedNeedle x.toList = true
  · rw [List.find?_cons_of_pos rest
      (show (fun t : String => containsSub citedNeedle t.toList) x = true from hx),
      if_pos hx]
  · rw [List.find?_cons_of_neg rest
      (show ¬(fun t : String => containsSub citedNeedle t.toList) x = true from hx),
      if_neg hx]

/-- Unfolding `citedBySpec` over the leading anchor. -/
theorem citedBySpec_cons (x : String) (rest : List String) :
    citedBySpec (x :: rest) =
      if containsSub citedSep x.toList = true then parseCitedText x
      else citedBySpec rest := by
  unfold citedBySpec
  by_cases hx : containsSub citedSep x.toList = true
  · rw [List.find?_cons_of_pos rest
      (show (fun t : String => containsSub citedSep t.toList) x = true from hx),
      if_pos hx]
  · rw [List.find?_cons_of_neg rest
      (show ¬(fun t : String => containsSub citedSep t.toList) x = true from hx),
      if_neg hx]

/-- C7 amended: the code scans for the first anchor containing
"Cited by" without the trailing space; whenever every such anchor also
contains "Cited by " (always true on real result markup), the extracted
count agrees with the specification's rule `citedBySpec`, including the
default 0 for an absent anchor or an unparseable count. -/
theorem cited_by_agrees_when_finder_consistent (anchors : List String)
    (h : ∀ a ∈ anchors, containsSub citedNeedle a.toList = true →
      containsSub citedSep a.toList = true) :
    extract_cited_by anchors = citedBySpec anchors := by
  induction anchors with
  | nil => rfl
  | cons x rest ih =>
    rw [extract_cited_by_cons, citedBySpec_cons]
    by_cases hx : containsSub citedNeedle x.toList = true
    · rw [if_pos hx, if_pos (h x (List.mem_cons_self x rest) hx)]
    · rw [if_neg hx, if_neg (fun hs => hx (containsSub_sep_needle _ hs)),
        ih (fun a ha => h a (List.mem_cons_of_mem x ha))]

/-- A result block whose first "Cited by"-containing anchor lacks the
trailing space, while a later anchor carries a well-formed count. -/
def rCitedEx : ResultDiv :=
  { title_text := some "T", byline_text := none, snippet_text := none,
    anchor_texts := ["Cited byte counts", "Cited by 42"] }

/-- C7 counterexample: the code matches anchors on "Cited by" without
the trailing space, so on `rCitedEx` it selects the first anchor, fails
to parse it and answers 0, while the claim's rule finds the second
anchor and answers 42. -/
theorem cited_by_finder_counterexample :
    (extract_paper_info rCitedEx).cited_by = 0 ∧
      citedBySpec rCitedEx.anchor_texts = 42 ∧
      (extract_paper_info rCitedEx).cited_by ≠ citedBySpec rCitedEx.anchor_texts := by
  decide

/-- Witness for the amended C7: a well-formed "Cited by 42" anchor
parses to 42 under both the code and the specification's rule. -/
theorem cited_by_agrees_witness :
    extract_cited_by ["Cited by 42"] = citedBySpec ["Cited by 42"] ∧
      extract_cited_by ["Cited by 42"] = 42 :=
  ⟨cited_by_agrees_when_finder_consistent ["Cited by 42"] (by decide), by decide⟩

/-- C8 amended: for a present, non-empty byline text the extracted
authors follow the specification's split-and-strip rule `authorsClaim`
and `publication_info` is the full byline; an absent byline (and, per
the counterexample, also a present-but-empty one) gives no authors and
an empty `publication_info`. -/
theorem authors_extraction_spec (r : ResultDiv) :
    (∀ b, r.byline_text = some b → b ≠ "" →
        (extract_paper_info r).authors = authorsClaim b ∧
          (extract_paper_info r).publication_info = b) ∧
      (r.byline_text = none →
        (extract_paper_info r).authors = [] ∧
          (extract_paper_info r).publication_info = "") := by
  constructor
  · intro b hb hne
    unfold extract_paper_info
    rw [hb]
    refine ⟨?_, rfl⟩
    show extract_authors b = authorsClaim b
    unfold extract_authors authorsClaim
    rw [if_neg hne]
  · intro hb
    unfold extract_paper_info
    rw [hb]
    exact ⟨rfl, rfl⟩

/-- A result block whose byline element is present but has empty text. -/
def rEmptyBylineEx : ResultDiv :=
  { title_text := some "T", byline_text := some "", snippet_text := none,
    anchor_texts := [] }

/-- C8 counterexample: on a present byline with empty text the code's
truthiness guard yields no authors, while the claim's unconditional
split rule would yield the single empty author name. -/
theorem authors_empty_byline_counterexample :
    rEmptyBylineEx.byline_text = some "" ∧
      (extract_paper_info rEmptyBylineEx).authors = [] ∧
      authorsClaim "" = [""] ∧
      (extract_paper_info rEmptyBylineEx).authors ≠ authorsClaim "" := by
  decide

/-- A result block with the specification's example byline. -/
def rBylineEx : ResultDiv :=
  { title_text := some "T", byline_text := some "A, B - Journal, 2020",
    snippet_text := none, anchor_texts := [] }

/-- Witness for the amended C8 on the byline "A, B - Journal, 2020". -/
theorem authors_extraction_spec_witness :
    ((extract_paper_info rBylineEx).authors = authorsClaim "A, B - Journal, 2020" ∧
        (extract_paper_info rBylineEx).publication_info = "A, B - Journal, 2020") ∧
      authorsClaim "A, B - Journal, 2020" = ["A", "B"] :=
  ⟨(authors_extraction_spec rBylineEx).1 "A, B - Journal, 2020" rfl (by decide),
    by decide⟩
